import Mathlib

/-!
Verification development for the DocAIAgent repository.

Part 1 embeds the frontend class-list helpers of
`src/backend/static/app.js` (`hasClass`, `updateElementTailwindClass`)
over `List Char`, mirroring the JavaScript string primitives
`split(' ')`, `join(' ')`, `trim()`, `startsWith` character by character.

Part 2 models, from the written specification (spec.md together with the
design notes `src/guideline2.md`, `src/documents.md` and the draft API
contract), the run-orchestration and layout-engine core whose backend
implementation is not part of the repository: the event log, idempotent
run creation, the run state machine with its approval gate, the text
measurer, the overlap-ratio geometry, the layout quality checker, the
font-shrink fix strategy and the bounded fix loop.
-/

namespace DocAIAgent

/-! ## JavaScript string primitives on lists of characters -/

/-- JavaScript `s.split(' ')` on the character list of `s`: the string is cut
at every single space character; `''.split(' ')` is `['']`, so the result is
always non-empty and adjacent spaces produce empty tokens. -/
def splitSp : List Char → List (List Char)
  | [] => [[]]
  | c :: cs =>
    if c = ' ' then [] :: splitSp cs
    else
      match splitSp cs with
      | [] => [[c]]
      | t :: ts => (c :: t) :: ts

/-- JavaScript `arr.join(' ')`: tokens concatenated with a single space
between consecutive tokens. -/
def joinSp : List (List Char) → List Char
  | [] => []
  | [t] => t
  | t :: ts => t ++ ' ' :: joinSp ts

/-- JavaScript truthiness of `c.trim()`: the trimmed token is non-empty
exactly when the token has a non-whitespace character. -/
def trimTruthy (t : List Char) : Bool :=
  t.any (fun ch => !ch.isWhitespace)

/-- `hasClass(classes, className)` from `src/backend/static/app.js`:
`null`/`undefined` are modelled as `none`; a falsy (empty) string returns
`false`; otherwise the class string is split at spaces and membership of
`className` among the tokens is tested (`Array.prototype.includes`). -/
def hasClass : Option String → String → Bool
  | none, _ => false
  | some s, className =>
    if s = "" then false
    else (splitSp s.data).contains className.data

/-- `updateElementTailwindClass(idx, prefix, newClass)` from
`src/backend/static/app.js`, restricted to its pure core: the input value is
split at spaces, tokens with falsy `trim()` are dropped, every token starting
with the prefix `p` is removed, the (truthy, i.e. non-empty) `newClass` is
pushed, and the tokens are joined with single spaces. -/
def updateElementTailwindClass (value p newClass : List Char) : List Char :=
  let classes := (splitSp value).filter trimTruthy
  let classes := classes.filter (fun c => !(List.isPrefixOf p c))
  let classes := if newClass = [] then classes else classes ++ [newClass]
  joinSp classes

theorem splitSp_ne_nil (cs : List Char) : splitSp cs ≠ [] := by
  induction cs with
  | nil => simp [splitSp]
  | cons c cs ih =>
    by_cases hc : c = ' '
    · simp [splitSp, hc]
    · cases h : splitSp cs with
      | nil => simp [splitSp, hc, h]
      | cons t ts => simp [splitSp, hc, h]

theorem splitSp_eq_cons (cs : List Char) : ∃ t ts, splitSp cs = t :: ts := by
  cases h : splitSp cs with
  | nil => exact absurd h (splitSp_ne_nil cs)
  | cons t ts => exact ⟨t, ts, rfl⟩

theorem splitSp_cons_space (cs : List Char) :
    splitSp (' ' :: cs) = [] :: splitSp cs := by
  simp [splitSp]

theorem splitSp_cons_of_ne (c : Char) (cs : List Char) (hc : c ≠ ' ')
    (t : List Char) (ts : List (List Char)) (h : splitSp cs = t :: ts) :
    splitSp (c :: cs) = (c :: t) :: ts := by
  simp [splitSp, hc, h]

theorem joinSp_cons_cons (t t2 : List Char) (ts : List (List Char)) :
    joinSp (t :: t2 :: ts) = t ++ ' ' :: joinSp (t2 :: ts) := by
  simp [joinSp]

theorem splitSp_tokens_space_free (cs : List Char) :
    ∀ t ∈ splitSp cs, ' ' ∉ t := by
  induction cs with
  | nil => simp [splitSp]
  | cons c cs ih =>
    by_cases hc : c = ' '
    · subst hc
      rw [splitSp_cons_space]
      intro t ht
      rcases List.mem_cons.mp ht with h1 | h1
      · subst h1; simp
      · exact ih t h1
    · obtain ⟨t0, ts, h⟩ := splitSp_eq_cons cs
      rw [splitSp_cons_of_ne c cs hc t0 ts h]
      intro t ht
      rcases List.mem_cons.mp ht with h1 | h1
      · subst h1
        intro hmem
        rcases List.mem_cons.mp hmem with h1 | h1
        · exact hc h1.symm
        · exact ih t0 (h ▸ List.mem_cons_self t0 ts) h1
      · exact ih t (h ▸ List.mem_cons_of_mem t0 h1)

theorem splitSp_append_space (a b : List Char) :
    splitSp (a ++ ' ' :: b) = splitSp a ++ splitSp b := by
  induction a with
  | nil => simp [splitSp_cons_space, splitSp]
  | cons c cs ih =>
    by_cases hc : c = ' '
    · subst hc
      rw [List.cons_append, splitSp_cons_space, splitSp_cons_space, ih,
        List.cons_append]
    · obtain ⟨t, ts, h⟩ := splitSp_eq_cons cs
      have h2 : splitSp (cs ++ ' ' :: b) = t :: (ts ++ splitSp b) := by
        rw [ih, h, List.cons_append]
      rw [List.cons_append, splitSp_cons_of_ne c _ hc t (ts ++ splitSp b) h2,
        splitSp_cons_of_ne c cs hc t ts h, List.cons_append]

theorem splitSp_space_free (t : List Char) (h : ' ' ∉ t) : splitSp t = [t] := by
  induction t with
  | nil => simp [splitSp]
  | cons c cs ih =>
    have hc : c ≠ ' ' := fun hh => h (hh ▸ List.mem_cons_self c cs)
    have hcs : ' ' ∉ cs := fun hh => h (List.mem_cons_of_mem c hh)
    exact splitSp_cons_of_ne c cs hc cs [] (ih hcs)

theorem joinSp_append (A B : List (List Char)) (hA : A ≠ []) (hB : B ≠ []) :
    joinSp (A ++ B) = joinSp A ++ ' ' :: joinSp B := by
  induction A with
  | nil => exact absurd rfl hA
  | cons t ts ih =>
    cases ts with
    | nil =>
      cases B with
      | nil => exact absurd rfl hB
      | cons b bs =>
        rw [List.singleton_append, joinSp_cons_cons]
        simp [joinSp]
    | cons t2 ts2 =>
      have h2 : t2 :: ts2 ≠ [] := by simp
      calc joinSp ((t :: t2 :: ts2) ++ B)
          = t ++ ' ' :: joinSp ((t2 :: ts2) ++ B) := by
            rw [List.cons_append, List.cons_append, joinSp_cons_cons,
              ← List.cons_append]
        _ = t ++ ' ' :: (joinSp (t2 :: ts2) ++ ' ' :: joinSp B) := by rw [ih h2]
        _ = joinSp (t :: t2 :: ts2) ++ ' ' :: joinSp B := by
            rw [joinSp_cons_cons]; simp

theorem splitSp_joinSp (L : List (List Char)) (h1 : L ≠ [])
    (h2 : ∀ t ∈ L, ' ' ∉ t) : splitSp (joinSp L) = L := by
  induction L with
  | nil => exact absurd rfl h1
  | cons t ts ih =>
    cases ts with
    | nil => simpa [joinSp] using splitSp_space_free t (h2 t (List.mem_cons_self t []))
    | cons t2 ts2 =>
      rw [joinSp_cons_cons, splitSp_append_space,
        splitSp_space_free t (h2 t (List.mem_cons_self t _)),
        ih (by simp) (fun u hu => h2 u (List.mem_cons_of_mem t hu)),
        List.singleton_append]

theorem joinSp_splitSp (cs : List Char) : joinSp (splitSp cs) = cs := by
  induction cs with
  | nil => simp [splitSp, joinSp]
  | cons c cs ih =>
    obtain ⟨t, ts, h⟩ := splitSp_eq_cons cs
    by_cases hc : c = ' '
    · subst hc
      rw [splitSp_cons_space, h]
      rw [h] at ih
      rw [joinSp_cons_cons, ih, List.nil_append]
    · rw [splitSp_cons_of_ne c cs hc t ts h]
      rw [h] at ih
      cases ts with
      | nil =>
        simp only [joinSp] at ih ⊢
        rw [← ih]
      | cons t2 ts2 =>
        rw [joinSp_cons_cons] at ih
        rw [joinSp_cons_cons, ← ih, List.cons_append]

/-- Specification-side notion of whole-token membership, independent of the
split-based implementation: `c` occurs in `s` as a complete space-delimited
token, i.e. `s = pre ++ c ++ post` where `pre` is empty or ends with a space,
`post` is empty or starts with a space, and `c` itself contains no space. -/
def tokenMem (c s : List Char) : Prop :=
  ' ' ∉ c ∧ ∃ pre post, s = pre ++ c ++ post ∧
    (pre = [] ∨ ∃ q, pre = q ++ [' ']) ∧
    (post = [] ∨ ∃ q, post = ' ' :: q)

theorem mem_splitSp_self_append (c post : List Char) (hc : ' ' ∉ c)
    (hpost : post = [] ∨ ∃ q, post = ' ' :: q) :
    c ∈ splitSp (c ++ post) := by
  rcases hpost with rfl | ⟨q, rfl⟩
  · rw [List.append_nil, splitSp_space_free c hc]
    exact List.mem_singleton.mpr rfl
  · rw [splitSp_append_space, splitSp_space_free c hc]
    exact List.mem_append_left _ (List.mem_singleton.mpr rfl)

theorem mem_splitSp_iff (c s : List Char) : c ∈ splitSp s ↔ tokenMem c s := by
  constructor
  · intro hmem
    refine ⟨splitSp_tokens_space_free s c hmem, ?_⟩
    obtain ⟨L1, L2, hL⟩ := List.append_of_mem hmem
    have hs : s = joinSp (L1 ++ c :: L2) := by rw [← hL, joinSp_splitSp]
    cases hL1 : L1 with
    | nil =>
      cases hL2 : L2 with
      | nil =>
        refine ⟨[], [], ?_, Or.inl rfl, Or.inl rfl⟩
        subst hL1; subst hL2
        simpa [joinSp] using hs
      | cons l2 ls =>
        refine ⟨[], ' ' :: joinSp L2, ?_, Or.inl rfl, Or.inr ⟨joinSp L2, rfl⟩⟩
        subst hL1; subst hL2
        simpa [joinSp_cons_cons] using hs
    | cons a as =>
      have hne : L1 ≠ [] := by rw [hL1]; simp
      cases hL2 : L2 with
      | nil =>
        refine ⟨joinSp L1 ++ [' '], [], ?_, Or.inr ⟨joinSp L1, rfl⟩, Or.inl rfl⟩
        subst hL2
        rw [hs, joinSp_append L1 [c] hne (by simp)]
        simp [joinSp]
      | cons l2 ls =>
        refine ⟨joinSp L1 ++ [' '], ' ' :: joinSp L2, ?_,
          Or.inr ⟨joinSp L1, rfl⟩, Or.inr ⟨joinSp L2, rfl⟩⟩
        rw [hs, joinSp_append L1 (c :: L2) hne (by simp), hL2,
          joinSp_cons_cons, ← hL2]
        simp
  · rintro ⟨hc, pre, post, rfl, hpre, hpost⟩
    rcases hpre with rfl | ⟨q, rfl⟩
    · rw [List.nil_append]
      exact mem_splitSp_self_append c post hc hpost
    · have : (q ++ [' ']) ++ c ++ post = q ++ ' ' :: (c ++ post) := by simp
      rw [this, splitSp_append_space]
      exact List.mem_append_right _ (mem_splitSp_self_append c post hc hpost)

/-- C10: `hasClass(classes, className)` performs whole-token membership in the
space-separated class list (never substring matching) and returns `false` for
`null`, `undefined` and the empty class string. -/
theorem hasClass_correct (s c : String) (hs : s ≠ "") :
    hasClass none c = false ∧ hasClass (some "") c = false ∧
    (hasClass (some s) c = true ↔ tokenMem c.data s.data) := by
  refine ⟨rfl, rfl, ?_⟩
  rw [← mem_splitSp_iff]
  simp [hasClass, hs]

theorem hasClass_correct_witness :
    hasClass none "a" = false ∧ hasClass (some "") "a" = false ∧
    (hasClass (some "text-blue-500 font-bold") "text-blue" = true ↔
      tokenMem "text-blue".data "text-blue-500 font-bold".data) :=
  hasClass_correct "text-blue-500 font-bold" "text-blue" (by decide)

/-- C9 counterexample: `updateElementTailwindClass` is not idempotent for a
`newClass` that does not start with the given prefix. With value `"mb-2"`,
prefix `"font-"` and new class `"bold"`, one application stores
`"mb-2 bold"` but a second application stores `"mb-2 bold bold"`: the pushed
class is not removed by the prefix filter on the next call. -/
theorem updateElementTailwindClass_not_idempotent :
    updateElementTailwindClass
        (updateElementTailwindClass ("mb-2".data) ("font-".data) ("bold".data))
        ("font-".data) ("bold".data)
      ≠ updateElementTailwindClass ("mb-2".data) ("font-".data) ("bold".data) := by
  decide

theorem mem_updateFiltered_space_free (value p : List Char) :
    ∀ t ∈ ((splitSp value).filter trimTruthy).filter
        (fun c => !(List.isPrefixOf p c)), ' ' ∉ t := by
  intro t ht
  exact splitSp_tokens_space_free value t
    (List.mem_of_mem_filter (List.mem_of_mem_filter ht))

/-- C9 (amended): for every class-list string, every non-empty `newClass`
that contains no space and starts with the prefix `p` (as at every call site
of `updateElementTailwindClass` in `app.js`), the resulting token list
contains `newClass`, contains no other token starting with `p`, and the
update is idempotent. -/
theorem updateElementTailwindClass_correct (value p newClass : List Char)
    (h1 : newClass ≠ []) (h2 : ' ' ∉ newClass)
    (h3 : List.isPrefixOf p newClass = true) :
    newClass ∈ splitSp (updateElementTailwindClass value p newClass) ∧
    (∀ c ∈ splitSp (updateElementTailwindClass value p newClass),
      List.isPrefixOf p c = true → c = newClass) ∧
    updateElementTailwindClass (updateElementTailwindClass value p newClass) p
        newClass
      = updateElementTailwindClass value p newClass := by
  have hL :
      updateElementTailwindClass value p newClass
        = joinSp (((splitSp value).filter trimTruthy).filter
            (fun c => !(List.isPrefixOf p c)) ++ [newClass]) := by
    simp only [updateElementTailwindClass, if_neg h1]
  set L := ((splitSp value).filter trimTruthy).filter
      (fun c => !(List.isPrefixOf p c)) with hLdef
  have hfree : ∀ t ∈ L ++ [newClass], ' ' ∉ t := by
    intro t ht
    rcases List.mem_append.mp ht with h | h
    · exact mem_updateFiltered_space_free value p t h
    · rw [List.mem_singleton.mp h]; exact h2
  have hsplit : splitSp (updateElementTailwindClass value p newClass)
      = L ++ [newClass] := by
    rw [hL]
    exact splitSp_joinSp _ (by simp) hfree
  refine ⟨?_, ?_, ?_⟩
  · rw [hsplit]
    exact List.mem_append_right _ (List.mem_singleton.mpr rfl)
  · intro c hc hp
    rw [hsplit] at hc
    rcases List.mem_append.mp hc with h | h
    · have := (List.mem_filter.mp h).2
      rw [hp] at this
      simp at this
    · exact List.mem_singleton.mp h
  · have hLtrim : L.filter trimTruthy = L := by
      refine List.filter_eq_self.mpr ?_
      intro t ht
      exact (List.mem_filter.mp (List.mem_of_mem_filter ht)).2
    have hLpref : L.filter (fun c => !(List.isPrefixOf p c)) = L := by
      refine List.filter_eq_self.mpr ?_
      intro t ht
      exact (List.mem_filter.mp ht).2
    simp only [updateElementTailwindClass, if_neg h1]
    rw [← hLdef, splitSp_joinSp _ (by simp) hfree,
      List.filter_append, List.filter_append, hLtrim]
    by_cases htr : trimTruthy newClass = true
    · simp [List.filter_singleton, htr, hLpref, h3]
    · simp [List.filter_singleton, htr, hLpref]

theorem updateElementTailwindClass_correct_witness :
    "text-lg".data ∈ splitSp (updateElementTailwindClass
        ("text-sm font-bold".data) ("text-".data) ("text-lg".data)) ∧
    (∀ c ∈ splitSp (updateElementTailwindClass ("text-sm font-bold".data)
        ("text-".data) ("text-lg".data)),
      List.isPrefixOf ("text-".data) c = true → c = "text-lg".data) ∧
    updateElementTailwindClass
        (updateElementTailwindClass ("text-sm font-bold".data) ("text-".data)
          ("text-lg".data)) ("text-".data) ("text-lg".data)
      = updateElementTailwindClass ("text-sm font-bold".data) ("text-".data)
          ("text-lg".data) :=
  updateElementTailwindClass_correct ("text-sm font-bold".data) ("text-".data)
    ("text-lg".data) (by decide) (by decide) (by decide)

/-! ## Run orchestration core, modelled from the specification

The backend implementation of the orchestrator is not part of the
repository; the following definitions are modelled from spec.md and the
design notes (`src/guideline2.md`, `src/documents.md`,
`src/unnamed/part_004`). -/

/-- Modelled from the spec: one row of the append-only `run_events` table for
a single run (`seq bigint`, `event_type text`, `payload jsonb`); the events
of other runs are independent, so one run's log is modelled on its own. -/
structure RunEvent where
  seq : Nat
  event_type : String
  payload : String
  deriving DecidableEq

/-- Modelled from the spec: the per-run event log, append-only, with the
`seq` counter scoped to the run (`UNIQUE(run_id, seq)`, server-assigned). -/
structure EventLog where
  events : List RunEvent
  deriving DecidableEq

def emptyLog : EventLog := ⟨[]⟩

/-- Modelled from the spec: appending an event lets the single per-run
authority assign the next sequence number; nothing already in the log is
touched. -/
def appendEvent (log : EventLog) (ty payload : String) : EventLog :=
  ⟨log.events ++ [⟨log.events.length, ty, payload⟩]⟩

/-- Replay a whole run: append every `(event_type, payload)` entry in order,
starting from the empty per-run log. -/
def replayAppend (entries : List (String × String)) : EventLog :=
  entries.foldl (fun log e => appendEvent log e.1 e.2) emptyLog

theorem replay_events_length (entries : List (String × String)) :
    ∀ log : EventLog,
      (entries.foldl (fun l e => appendEvent l e.1 e.2) log).events.length
        = log.events.length + entries.length := by
  induction entries with
  | nil => intro log; simp
  | cons e es ih =>
    intro log
    rw [List.foldl_cons, ih]
    simp [appendEvent]
    omega

theorem replay_events_seq (entries : List (String × String)) :
    ∀ log : EventLog,
      log.events.map RunEvent.seq = List.range log.events.length →
      (entries.foldl (fun l e => appendEvent l e.1 e.2) log).events.map
          RunEvent.seq
        = List.range
            ((entries.foldl (fun l e => appendEvent l e.1 e.2) log).events.length) := by
  induction entries with
  | nil => intro log h; simpa using h
  | cons e es ih =>
    intro log h
    rw [List.foldl_cons]
    refine ih (appendEvent log e.1 e.2) ?_
    simp only [appendEvent, List.map_append, List.length_append, h]
    simp [List.range_succ]

/-- C2: replaying any sequence of appends from the empty per-run log yields
sequence numbers exactly `0, 1, ..., n-1` (strictly increasing, gap-free,
starting at `0`), and an append never changes or removes a previously
appended event of the same run (the old log is a prefix of the new one). -/
theorem run_events_seq_gapless (entries : List (String × String))
    (log : EventLog) (ty pl : String) :
    (replayAppend entries).events.map RunEvent.seq
        = List.range entries.length ∧
    (appendEvent log ty pl).events.take log.events.length = log.events := by
  constructor
  · have h := replay_events_seq entries emptyLog (by simp [emptyLog])
    rw [replayAppend, h, replay_events_length entries emptyLog]
    simp [emptyLog]
  · simp [appendEvent, List.take_left]

/-- Modelled from the spec: one row of the `runs` table, restricted to the
columns that drive idempotent creation
(`UNIQUE(org_id, created_by, idempotency_key)`). -/
structure Run where
  run_id : Nat
  org_id : Nat
  created_by : Nat
  idempotency_key : String
  deriving DecidableEq

/-- Modelled from the spec: the set of Runs plus the id generator. -/
structure RunStore where
  runs : List Run
  next_id : Nat
  deriving DecidableEq

def findByKey (st : RunStore) (org creator : Nat) (key : String) :
    Option Run :=
  st.runs.find? (fun r =>
    r.org_id == org && r.created_by == creator && r.idempotency_key == key)

/-- Modelled from the spec: `POST /runs` with an `Idempotency-Key` — if a run
with the same `(org, creator, idempotency_key)` already exists, its `run_id`
is returned and the store is unchanged; otherwise a fresh run row is
inserted. -/
def createRun (st : RunStore) (org creator : Nat) (key : String) :
    Nat × RunStore :=
  match findByKey st org creator key with
  | some r => (r.run_id, st)
  | none =>
    (st.next_id,
     ⟨st.runs ++ [⟨st.next_id, org, creator, key⟩], st.next_id + 1⟩)

theorem findByKey_after_create (st : RunStore) (org creator : Nat)
    (key : String) (h : findByKey st org creator key = none) :
    findByKey (createRun st org creator key).2 org creator key
      = some ⟨st.next_id, org, creator, key⟩ := by
  simp only [createRun, h]
  simp only [findByKey, List.find?_append]
  rw [findByKey] at h
  rw [h]
  simp

/-- C3: run creation is idempotent in `(org, creator, idempotency_key)`: a
second creation call with the same key returns the run id of the first call
and leaves the set of Runs (and the whole store) unchanged; moreover if a
run already exists under the key, creation returns that original run's id
without touching the store. -/
theorem createRun_idempotent (st : RunStore) (org creator : Nat)
    (key : String) :
    (createRun (createRun st org creator key).2 org creator key).1
        = (createRun st org creator key).1 ∧
    (createRun (createRun st org creator key).2 org creator key).2
        = (createRun st org creator key).2 ∧
    (∀ r : Run, findByKey st org creator key = some r →
      createRun st org creator key = (r.run_id, st)) := by
  refine ⟨?_, ?_, ?_⟩
  · cases h : findByKey st org creator key with
    | some r => simp [createRun, h]
    | none =>
      have h2 := findByKey_after_create st org creator key h
      simp [createRun, h, h2]
      simp [createRun, h] at h2 ⊢
      rw [h2]
  · cases h : findByKey st org creator key with
    | some r => simp [createRun, h]
    | none =>
      have h2 := findByKey_after_create st org creator key h
      simp [createRun, h] at h2 ⊢
      rw [h2]
  · intro r h
    simp [createRun, h]

theorem createRun_idempotent_witness :
    (createRun (createRun ⟨[], 5⟩ 1 2 "k").2 1 2 "k").1
        = (createRun ⟨[], 5⟩ 1 2 "k").1 ∧
    createRun ⟨[⟨7, 1, 2, "k"⟩], 8⟩ 1 2 "k" = (7, ⟨[⟨7, 1, 2, "k"⟩], 8⟩) :=
  ⟨(createRun_idempotent ⟨[], 5⟩ 1 2 "k").1,
   (createRun_idempotent ⟨[⟨7, 1, 2, "k"⟩], 8⟩ 1 2 "k").2.2 ⟨7, 1, 2, "k"⟩
     (by decide)⟩

/-- Modelled from the spec: the `runs.status` enumeration of the run state
machine (CHECK constraint of the `runs` table). -/
inductive RunStatus
  | created
  | planning
  | waiting_approval
  | executing
  | rendering
  | quality_check
  | completed
  | failed
  | cancelled
  deriving DecidableEq

def isTerminal : RunStatus → Bool
  | RunStatus.completed => true
  | RunStatus.failed => true
  | RunStatus.cancelled => true
  | _ => false

/-- Modelled from the spec: the events that drive run state transitions
(orchestration start, reaching a declared approval gate, the explicit
approval, IR schema validation, render success, a fix-loop iteration, QC
pass or budget exhaustion, a fatal step failure, and cancellation observed
at a step boundary). -/
inductive OrchEvent
  | start
  | gate_reached
  | approval
  | ir_validated
  | render_succeeded
  | fix_produced
  | qc_finalized
  | step_fatal
  | cancel_observed
  deriving DecidableEq

/-- Modelled from the spec: the legal transitions of the run state machine
(spec.md section 4.1); `none` means the event is refused in that state. -/
def stepStatus : RunStatus → OrchEvent → Option RunStatus
  | RunStatus.created, OrchEvent.start => some RunStatus.planning
  | RunStatus.planning, OrchEvent.gate_reached => some RunStatus.waiting_approval
  | RunStatus.waiting_approval, OrchEvent.approval => some RunStatus.executing
  | RunStatus.planning, OrchEvent.ir_validated => some RunStatus.rendering
  | RunStatus.executing, OrchEvent.ir_validated => some RunStatus.rendering
  | RunStatus.rendering, OrchEvent.render_succeeded => some RunStatus.quality_check
  | RunStatus.quality_check, OrchEvent.fix_produced => some RunStatus.rendering
  | RunStatus.quality_check, OrchEvent.qc_finalized => some RunStatus.completed
  | s, OrchEvent.step_fatal =>
    if isTerminal s then none else some RunStatus.failed
  | s, OrchEvent.cancel_observed =>
    if isTerminal s then none else some RunStatus.cancelled
  | _, _ => none

/-- Modelled from the spec: the run state relevant to
`POST /v1/runs/run_id/approve` — the current status and the queue of
enqueued steps. -/
structure OrchRun where
  status : RunStatus
  queue : List String
  deriving DecidableEq

/-- Modelled from the spec: the approve endpoint — only a run sitting at the
approval gate may be approved; it transitions to `executing` and the next
step is enqueued; any other status is rejected with `RUN_NOT_APPROVABLE`
and the run is left as it is. -/
def approve (r : OrchRun) (nextStep : String) : Except String OrchRun :=
  if r.status = RunStatus.waiting_approval then
    Except.ok ⟨RunStatus.executing, r.queue ++ [nextStep]⟩
  else
    Except.error "RUN_NOT_APPROVABLE"

/-- C8: an approve call on a run in `waiting_approval` transitions it to
`executing` and enqueues the next step; the approval event is the only
event the state machine accepts out of `waiting_approval` into `executing`
(never automatic); and an approve call on a run in any other state —
including a run already approved once, now `executing` — is rejected with
`RUN_NOT_APPROVABLE`, leaving the run unchanged. -/
theorem approve_gate (r : OrchRun) (nextStep : String) (ev : OrchEvent) :
    (r.status = RunStatus.waiting_approval →
      approve r nextStep
        = Except.ok ⟨RunStatus.executing, r.queue ++ [nextStep]⟩) ∧
    (stepStatus RunStatus.waiting_approval ev = some RunStatus.executing →
      ev = OrchEvent.approval) ∧
    (r.status ≠ RunStatus.waiting_approval →
      approve r nextStep = Except.error "RUN_NOT_APPROVABLE") := by
  refine ⟨?_, ?_, ?_⟩
  · intro h; simp [approve, h]
  · intro h
    cases ev
    all_goals simp_all [stepStatus, isTerminal]
  · intro h; simp [approve, h]

theorem approve_gate_witness :
    approve ⟨RunStatus.waiting_approval, []⟩ "render_plan"
        = Except.ok ⟨RunStatus.executing, ["render_plan"]⟩ ∧
    approve ⟨RunStatus.executing, ["render_plan"]⟩ "render_plan"
        = Except.error "RUN_NOT_APPROVABLE" :=
  ⟨(approve_gate ⟨RunStatus.waiting_approval, []⟩ "render_plan"
      OrchEvent.approval).1 rfl,
   (approve_gate ⟨RunStatus.executing, ["render_plan"]⟩ "render_plan"
      OrchEvent.approval).2.2 (by decide)⟩

/-! ## Layout engine, modelled from the specification -/

/-- Modelled from the spec: the cache key of the Measurer — a
`(text, font, box width)` triple (font size in points, width in abstract
layout units). -/
structure MeasureKey where
  text : String
  font_pt : Nat
  box_width : Nat
  deriving DecidableEq

/-- Modelled from the spec: the Measurer's output — line count and required
height. -/
structure TextMetrics where
  line_count : Nat
  required_height : Nat
  deriving DecidableEq

/-- Modelled from the spec: the average-character-width measurement strategy
(the design notes leave the strategy open between font metrics, canvas
measurement and an average-character-width approximation; this model fixes
the approximation variant with character width `0.6 * font` and line height
`1.3 * font`, rounded down on naturals). -/
def measureTextPure (k : MeasureKey) : TextMetrics :=
  let charW := max 1 (k.font_pt * 6 / 10)
  let perLine := max 1 (k.box_width / charW)
  let lines := max 1 ((k.text.length + perLine - 1) / perLine)
  ⟨lines, lines * (k.font_pt * 13 / 10)⟩

/-- Modelled from the spec: the Measurer service with its per-key cache. -/
structure Measurer where
  cache : List (MeasureKey × TextMetrics)
  deriving DecidableEq

def emptyMeasurer : Measurer := ⟨[]⟩

/-- Modelled from the spec: one Measurer invocation — answer from the cache
when the key is present, otherwise compute and memoize. -/
def measureText (st : Measurer) (k : MeasureKey) : TextMetrics × Measurer :=
  match st.cache.find? (fun p => p.1 == k) with
  | some q => (q.2, st)
  | none => (measureTextPure k, ⟨(k, measureTextPure k) :: st.cache⟩)

/-- The Measurer cache invariant: every memoized answer is the computed
measurement for its key. -/
def CacheConsistent (st : Measurer) : Prop :=
  ∀ p ∈ st.cache, p.2 = measureTextPure p.1

theorem measureText_eq_pure (st : Measurer) (k : MeasureKey)
    (h : CacheConsistent st) : (measureText st k).1 = measureTextPure k := by
  cases hl : st.cache.find? (fun p => p.1 == k) with
  | none => simp [measureText, hl]
  | some q =>
    have hm := List.mem_of_find?_eq_some hl
    have hk : q.1 = k := by
      have := List.find?_some hl
      simpa using this
    have hq := h q hm
    simp [measureText, hl, hq, hk]

/-- C5: the Measurer is deterministic — from any two cache states whose
entries agree with the computation (in particular, any states reachable
from the empty cache), invocations on the same `(text, font, box width)` key
return the same line count and required height; invocation preserves the
cache invariant, and the empty cache satisfies it. -/
theorem measurer_deterministic (st st' : Measurer) (k k' : MeasureKey)
    (h : CacheConsistent st) (h' : CacheConsistent st') :
    (measureText st k).1 = (measureText st' k).1 ∧
    CacheConsistent (measureText st k').2 ∧
    CacheConsistent emptyMeasurer := by
  refine ⟨?_, ?_, ?_⟩
  · rw [measureText_eq_pure st k h, measureText_eq_pure st' k h']
  · cases hl : st.cache.find? (fun p => p.1 == k') with
    | some v => simpa [measureText, hl] using h
    | none =>
      intro p hp
      simp only [measureText, hl] at hp
      rcases List.mem_cons.mp hp with h1 | h1
      · rw [h1]
      · exact h p h1
  · intro p hp
    simp [emptyMeasurer] at hp

theorem measurer_deterministic_witness :
    (measureText emptyMeasurer ⟨"hello world", 18, 40⟩).1
        = (measureText ⟨[(⟨"hello world", 18, 40⟩,
            measureTextPure ⟨"hello world", 18, 40⟩)]⟩
            ⟨"hello world", 18, 40⟩).1 ∧
    CacheConsistent
        (measureText emptyMeasurer ⟨"other text", 12, 30⟩).2 ∧
    CacheConsistent emptyMeasurer :=
  measurer_deterministic emptyMeasurer
    ⟨[(⟨"hello world", 18, 40⟩, measureTextPure ⟨"hello world", 18, 40⟩)]⟩
    ⟨"hello world", 18, 40⟩ ⟨"other text", 12, 30⟩
    (by intro p hp; simp [emptyMeasurer] at hp)
    (by
      intro p hp
      simp only [List.mem_singleton] at hp
      rw [hp])

/-- Modelled from the spec: an axis-aligned bounding box (origin plus
extent), with rational coordinates standing for the layout units. -/
structure Box where
  x : ℚ
  y : ℚ
  w : ℚ
  h : ℚ
  deriving DecidableEq

/-- Width of the intersection of two axis-aligned boxes, clamped at zero. -/
def interW (a b : Box) : ℚ :=
  max 0 (min (a.x + a.w) (b.x + b.w) - max a.x b.x)

/-- Height of the intersection of two axis-aligned boxes, clamped at zero. -/
def interH (a b : Box) : ℚ :=
  max 0 (min (a.y + a.h) (b.y + b.h) - max a.y b.y)

def interArea (a b : Box) : ℚ := interW a b * interH a b

def boxArea (b : Box) : ℚ := b.w * b.h

/-- Modelled from the spec: `overlap_ratio` — the intersection area divided
by the area of the smaller of the two boxes. -/
def overlapRatioVal (a b : Box) : ℚ :=
  interArea a b / min (boxArea a) (boxArea b)

/-- Two axis-aligned boxes have empty intersection: they are separated along
one of the two axes. -/
def disjointBoxes (a b : Box) : Prop :=
  a.x + a.w ≤ b.x ∨ b.x + b.w ≤ a.x ∨ a.y + a.h ≤ b.y ∨ b.y + b.h ≤ a.y

theorem interW_comm (a b : Box) : interW a b = interW b a := by
  rw [interW, interW, min_comm (a.x + a.w), max_comm a.x b.x]

theorem interH_comm (a b : Box) : interH a b = interH b a := by
  rw [interH, interH, min_comm (a.y + a.h), max_comm a.y b.y]

theorem interW_nonneg (a b : Box) : 0 ≤ interW a b := le_max_left 0 _

theorem interH_nonneg (a b : Box) : 0 ≤ interH a b := le_max_left 0 _

theorem interW_le_left (a b : Box) (hw : 0 ≤ a.w) : interW a b ≤ a.w := by
  refine max_le hw ?_
  have h1 : min (a.x + a.w) (b.x + b.w) ≤ a.x + a.w := min_le_left _ _
  have h2 : a.x ≤ max a.x b.x := le_max_left _ _
  linarith

theorem interH_le_left (a b : Box) (hh : 0 ≤ a.h) : interH a b ≤ a.h := by
  refine max_le hh ?_
  have h1 : min (a.y + a.h) (b.y + b.h) ≤ a.y + a.h := min_le_left _ _
  have h2 : a.y ≤ max a.y b.y := le_max_left _ _
  linarith

theorem interArea_le_left (a b : Box) (hw : 0 ≤ a.w) (hh : 0 ≤ a.h) :
    interArea a b ≤ boxArea a :=
  mul_le_mul (interW_le_left a b hw) (interH_le_left a b hh)
    (interH_nonneg a b) hw

/-- C6: for boxes of positive area, `overlap_ratio` is symmetric, lies in
`[0, 1]`, and is `0` whenever the boxes have empty intersection. -/
theorem overlap_ratio_props (a b : Box) (haw : 0 < a.w) (hah : 0 < a.h)
    (hbw : 0 < b.w) (hbh : 0 < b.h) :
    overlapRatioVal a b = overlapRatioVal b a ∧
    0 ≤ overlapRatioVal a b ∧ overlapRatioVal a b ≤ 1 ∧
    (disjointBoxes a b → overlapRatioVal a b = 0) := by
  have hA : 0 < boxArea a := mul_pos haw hah
  have hB : 0 < boxArea b := mul_pos hbw hbh
  have hmin : 0 < min (boxArea a) (boxArea b) := lt_min hA hB
  refine ⟨?_, ?_, ?_, ?_⟩
  · rw [overlapRatioVal, overlapRatioVal, interArea, interArea, interW_comm,
      interH_comm, min_comm]
  · exact div_nonneg
      (mul_nonneg (interW_nonneg a b) (interH_nonneg a b)) hmin.le
  · rw [overlapRatioVal, div_le_one hmin]
    refine le_min (interArea_le_left a b haw.le hah.le) ?_
    rw [interArea, interW_comm, interH_comm]
    exact interArea_le_left b a hbw.le hbh.le
  · intro hd
    have hzero : interArea a b = 0 := by
      rcases hd with h | h | h | h
      · have : interW a b = 0 := by
          refine max_eq_left (sub_nonpos.mpr ?_)
          exact le_trans (le_trans (min_le_left _ _) h) (le_max_right a.x b.x)
        rw [interArea, this, zero_mul]
      · have : interW a b = 0 := by
          refine max_eq_left (sub_nonpos.mpr ?_)
          exact le_trans (le_trans (min_le_right _ _) h) (le_max_left a.x b.x)
        rw [interArea, this, zero_mul]
      · have : interH a b = 0 := by
          refine max_eq_left (sub_nonpos.mpr ?_)
          exact le_trans (le_trans (min_le_left _ _) h) (le_max_right a.y b.y)
        rw [interArea, this, mul_zero]
      · have : interH a b = 0 := by
          refine max_eq_left (sub_nonpos.mpr ?_)
          exact le_trans (le_trans (min_le_right _ _) h) (le_max_left a.y b.y)
        rw [interArea, this, mul_zero]
    rw [overlapRatioVal, hzero, zero_div]

theorem overlap_ratio_props_witness :
    overlapRatioVal ⟨0, 0, 4, 3⟩ ⟨9, 0, 2, 3⟩
        = overlapRatioVal ⟨9, 0, 2, 3⟩ ⟨0, 0, 4, 3⟩ ∧
    0 ≤ overlapRatioVal ⟨0, 0, 4, 3⟩ ⟨9, 0, 2, 3⟩ ∧
    overlapRatioVal ⟨0, 0, 4, 3⟩ ⟨9, 0, 2, 3⟩ ≤ 1 ∧
    (disjointBoxes ⟨0, 0, 4, 3⟩ ⟨9, 0, 2, 3⟩ →
      overlapRatioVal ⟨0, 0, 4, 3⟩ ⟨9, 0, 2, 3⟩ = 0) :=
  overlap_ratio_props ⟨0, 0, 4, 3⟩ ⟨9, 0, 2, 3⟩ (by norm_num) (by norm_num)
    (by norm_num) (by norm_num)

/-- Modelled from the spec: issue severity levels. -/
inductive Severity
  | low
  | medium
  | high
  deriving DecidableEq

/-- Modelled from the spec: a structured QC issue — text overflow, sibling
overlap (with the offending pair and its overlap ratio), out-of-bounds,
minimum-font violation, footer/citation overflow. -/
inductive QCIssue
  | overflow (element_id : String) (sev : Severity)
  | overlap (a b : String) (rv : ℚ) (sev : Severity)
  | out_of_bounds (element_id : String) (sev : Severity)
  | min_font (element_id : String) (sev : Severity)
  | footer_overflow (sev : Severity)
  deriving DecidableEq

/-- Modelled from the spec: the per-element data the Quality Checker reads
from a `LayoutPlan`: resolved bounding box, resolved font size, the
element's `min_font_pt` constraint and the measured required height. -/
structure QCElem where
  element_id : String
  box : Box
  font_size : ℚ
  min_font_pt : ℚ
  measured_height : ℚ
  deriving DecidableEq

/-- Modelled from the spec: the slice of a `LayoutPlan` for one slide that
the Quality Checker consumes, with the safe area and the footer band. -/
structure LayoutPlan where
  slide_id : String
  elements : List QCElem
  safe : Box
  footer_limit : ℚ
  footer_height : ℚ
  deriving DecidableEq

/-- All unordered sibling pairs, in list order. -/
def sibPairs {α : Type} : List α → List (α × α)
  | [] => []
  | e :: es => es.map (fun f => (e, f)) ++ sibPairs es

def overflowIssues (p : LayoutPlan) : List QCIssue :=
  (p.elements.filter (fun e => decide (e.box.h < e.measured_height))).map
    (fun e => QCIssue.overflow e.element_id Severity.high)

def overlapIssues (p : LayoutPlan) : List QCIssue :=
  ((sibPairs p.elements).filter
      (fun q => decide ((2 : ℚ)/100 ≤ overlapRatioVal q.1.box q.2.box))).map
    (fun q => QCIssue.overlap q.1.element_id q.2.element_id
      (overlapRatioVal q.1.box q.2.box) Severity.medium)

def outOfBoundsB (safe : Box) (e : QCElem) : Bool :=
  decide (e.box.x < safe.x) || decide (e.box.y < safe.y) ||
  decide (safe.x + safe.w < e.box.x + e.box.w) ||
  decide (safe.y + safe.h < e.box.y + e.box.h)

def outOfBoundsIssues (p : LayoutPlan) : List QCIssue :=
  (p.elements.filter (outOfBoundsB p.safe)).map
    (fun e => QCIssue.out_of_bounds e.element_id Severity.high)

def minFontIssues (p : LayoutPlan) : List QCIssue :=
  (p.elements.filter (fun e => decide (e.font_size < e.min_font_pt))).map
    (fun e => QCIssue.min_font e.element_id Severity.medium)

def footerIssues (p : LayoutPlan) : List QCIssue :=
  if p.footer_limit < p.footer_height
  then [QCIssue.footer_overflow Severity.low]
  else []

/-- Modelled from the spec: the Quality Checker — a pure function over a
`LayoutPlan` producing the issue list with the fixed thresholds (overlap
threshold `2/100`). -/
def qualityCheck (p : LayoutPlan) : List QCIssue :=
  overflowIssues p ++ overlapIssues p ++ outOfBoundsIssues p ++
    minFontIssues p ++ footerIssues p

/-- Modelled from the spec: `pass = issues.isEmpty()`. -/
def qcPass (p : LayoutPlan) : Bool := (qualityCheck p).isEmpty

/-- Scenario B of the spec: two 10x10 elements whose boxes overlap by 5% of
the smaller element's area, nothing else wrong. -/
def scenBPlan : LayoutPlan :=
  { slide_id := "s1"
  , elements :=
      [ ⟨"e1", ⟨0, 0, 10, 10⟩, 14, 12, 8⟩
      , ⟨"e2", ⟨9, 5, 10, 10⟩, 14, 12, 8⟩ ]
  , safe := ⟨0, 0, 20, 20⟩
  , footer_limit := 2
  , footer_height := 1 }

theorem qualityCheck_scenB :
    qualityCheck scenBPlan
      = [QCIssue.overlap "e1" "e2" (1/20) Severity.medium] := by
  norm_num [qualityCheck, overflowIssues, overlapIssues, outOfBoundsIssues,
    minFontIssues, footerIssues, scenBPlan, sibPairs, outOfBoundsB,
    overlapRatioVal, interArea, interW, interH, boxArea, min_def, max_def,
    List.filter]

theorem overlap_not_mem_overflow (p : LayoutPlan) (ida idb : String)
    (rv : ℚ) (sev : Severity) :
    QCIssue.overlap ida idb rv sev ∉ overflowIssues p := by
  simp [overflowIssues]

theorem overlap_not_mem_oob (p : LayoutPlan) (ida idb : String)
    (rv : ℚ) (sev : Severity) :
    QCIssue.overlap ida idb rv sev ∉ outOfBoundsIssues p := by
  simp [outOfBoundsIssues]

theorem overlap_not_mem_minfont (p : LayoutPlan) (ida idb : String)
    (rv : ℚ) (sev : Severity) :
    QCIssue.overlap ida idb rv sev ∉ minFontIssues p := by
  simp [minFontIssues]

theorem overlap_not_mem_footer (p : LayoutPlan) (ida idb : String)
    (rv : ℚ) (sev : Severity) :
    QCIssue.overlap ida idb rv sev ∉ footerIssues p := by
  rw [footerIssues]
  split
  · simp
  · simp

/-- C7: the Quality Checker reports an overlap issue for a pair of siblings
exactly when their overlap ratio is at least `2/100` (and then with severity
`medium`); on Scenario B — two elements overlapping by 5% of the smaller
area — it reports exactly one overlap issue of severity `medium`; and the
check passes exactly when the issue list is empty. -/
theorem qualityCheck_overlap_spec (p : LayoutPlan) (ida idb : String)
    (rv : ℚ) (sev : Severity) :
    (QCIssue.overlap ida idb rv sev ∈ qualityCheck p ↔
      ∃ e f, (e, f) ∈ sibPairs p.elements ∧ ida = e.element_id ∧
        idb = f.element_id ∧ rv = overlapRatioVal e.box f.box ∧
        sev = Severity.medium ∧
        (2 : ℚ)/100 ≤ overlapRatioVal e.box f.box) ∧
    qualityCheck scenBPlan
      = [QCIssue.overlap "e1" "e2" (1/20) Severity.medium] ∧
    (qcPass p = true ↔ qualityCheck p = []) := by
  refine ⟨?_, qualityCheck_scenB, ?_⟩
  · simp only [qualityCheck, List.mem_append, overlap_not_mem_overflow,
      overlap_not_mem_oob, overlap_not_mem_minfont, overlap_not_mem_footer,
      or_false, false_or]
    rw [overlapIssues]
    simp only [List.mem_map, List.mem_filter, decide_eq_true_eq]
    constructor
    · rintro ⟨⟨e, f⟩, ⟨hq, hr⟩, heq⟩
      rw [QCIssue.overlap.injEq] at heq
      exact ⟨e, f, hq, heq.1.symm, heq.2.1.symm, heq.2.2.1.symm,
        heq.2.2.2.symm, hr⟩
    · rintro ⟨e, f, hq, rfl, rfl, rfl, rfl, hr⟩
      exact ⟨(e, f), ⟨hq, hr⟩, rfl⟩
  · rw [qcPass, List.isEmpty_iff]

/-! ## Fix engine, modelled from the specification -/

/-- Modelled from the spec: the deterministic, priority-ordered fix strategy
tiers (shrink font, recompute wrapping, adjust spacing, change layout,
split slide, summarize as last resort). -/
inductive FixTier
  | shrink_font
  | recompute_wrap
  | adjust_spacing
  | change_layout
  | split_slide
  | summarize
  deriving DecidableEq

/-- Modelled from the spec: the element data the shrink strategy reads —
current font size, the `min_font_pt` constraint and the `allow_shrink`
flag (sizes in whole points). -/
structure FixElement where
  font_size : Nat
  min_font_pt : Nat
  allow_shrink : Bool
  deriving DecidableEq

/-- Fuel-indexed descent: test the current size; on overflow step down by
the fixed decrement, but only while the next candidate stays at or above
`minFont`. -/
def shrinkGo (fits : Nat → Bool) (minFont decr : Nat) :
    Nat → Nat → Option Nat
  | 0, _ => none
  | fuel + 1, size =>
    if fits size then some size
    else if minFont + decr ≤ size then
      shrinkGo fits minFont decr fuel (size - decr)
    else none

/-- Modelled from the spec: the tier-1 shrink search — try the current font
size and then fixed decrements, re-measuring each step, never going below
`min_font_pt`; `none` when no legal size fits. -/
def shrinkFont (fits : Nat → Bool) (minFont decr current : Nat) :
    Option Nat :=
  shrinkGo fits minFont decr (current + 1) current

/-- Modelled from the spec: one overflow-fix attempt on an element — tier 1
shrinks the font when allowed and possible; otherwise the engine moves on to
the next strategy tier, leaving the font untouched. -/
def fixOverflowStep (fits : Nat → Bool) (decr : Nat) (e : FixElement) :
    FixElement × FixTier :=
  if e.allow_shrink then
    match shrinkFont fits e.min_font_pt decr e.font_size with
    | some s => (⟨s, e.min_font_pt, e.allow_shrink⟩, FixTier.shrink_font)
    | none => (e, FixTier.recompute_wrap)
  else (e, FixTier.recompute_wrap)

theorem shrinkGo_sound (fits : Nat → Bool) (minFont decr : Nat) :
    ∀ fuel size s, minFont ≤ size →
      shrinkGo fits minFont decr fuel size = some s →
      minFont ≤ s ∧ s ≤ size ∧ fits s = true := by
  intro fuel
  induction fuel with
  | zero => intro size s _ h; simp [shrinkGo] at h
  | succ f ih =>
    intro size s hmin h
    rw [shrinkGo] at h
    by_cases hf : fits size = true
    · rw [if_pos hf] at h
      have : size = s := Option.some.injEq _ _ |>.mp h
      subst this
      exact ⟨hmin, le_refl _, hf⟩
    · rw [if_neg hf] at h
      by_cases hd : minFont + decr ≤ size
      · rw [if_pos hd] at h
        have hmin2 : minFont ≤ size - decr := by omega
        obtain ⟨h1, h2, h3⟩ := ih (size - decr) s hmin2 h
        exact ⟨h1, by omega, h3⟩
      · rw [if_neg hd] at h
        simp at h

theorem shrinkFont_sound (fits : Nat → Bool) (minFont decr current s : Nat)
    (hmin : minFont ≤ current)
    (h : shrinkFont fits minFont decr current = some s) :
    minFont ≤ s ∧ s ≤ current ∧ fits s = true :=
  shrinkGo_sound fits minFont decr (current + 1) current s hmin h

/-- C4: the Fix Engine never moves a font below `min_font_pt` — for an
element whose font starts at or above its minimum, the element produced by
an overflow-fix attempt still satisfies the minimum (and was never
enlarged); and whenever no shrink within `[min_font_pt, current)` resolves
the overflow, the engine proceeds to the next strategy tier with the font
unchanged instead of shrinking further. -/
theorem fix_engine_min_font (fits : Nat → Bool) (decr : Nat)
    (e : FixElement) (hmin : e.min_font_pt ≤ e.font_size) :
    e.min_font_pt ≤ (fixOverflowStep fits decr e).1.font_size ∧
    (fixOverflowStep fits decr e).1.font_size ≤ e.font_size ∧
    (shrinkFont fits e.min_font_pt decr e.font_size = none →
      (fixOverflowStep fits decr e).2 ≠ FixTier.shrink_font ∧
      (fixOverflowStep fits decr e).1 = e) := by
  by_cases ha : e.allow_shrink = true
  · cases hs : shrinkFont fits e.min_font_pt decr e.font_size with
    | some s =>
      obtain ⟨h1, h2, _⟩ :=
        shrinkFont_sound fits e.min_font_pt decr e.font_size s hmin hs
      refine ⟨?_, ?_, ?_⟩
      · simpa [fixOverflowStep, ha, hs] using h1
      · simpa [fixOverflowStep, ha, hs] using h2
      · intro hnone; simp [hs] at hnone
    | none =>
      refine ⟨?_, ?_, ?_⟩
      · simpa [fixOverflowStep, ha, hs] using hmin
      · simp [fixOverflowStep, ha, hs]
      · intro _; simp [fixOverflowStep, ha, hs]
  · refine ⟨?_, ?_, ?_⟩
    · simpa [fixOverflowStep, ha] using hmin
    · simp [fixOverflowStep, ha]
    · intro _; simp [fixOverflowStep, ha]

theorem fix_engine_min_font_witness :
    12 ≤ (fixOverflowStep (fun _ => false) 2 ⟨14, 12, true⟩).1.font_size ∧
    (fixOverflowStep (fun _ => false) 2 ⟨14, 12, true⟩).1.font_size ≤ 14 ∧
    (shrinkFont (fun _ => false) 12 2 14 = none →
      (fixOverflowStep (fun _ => false) 2 ⟨14, 12, true⟩).2
          ≠ FixTier.shrink_font ∧
      (fixOverflowStep (fun _ => false) 2 ⟨14, 12, true⟩).1
          = ⟨14, 12, true⟩) :=
  fix_engine_min_font (fun _ => false) 2 ⟨14, 12, true⟩ (by decide)

/-- Modelled from the spec: the default fix-loop bound (`max_fix_loops`,
default 3). -/
def default_max_fix_loops : Nat := 3

/-- Outcome of a run's fix loop: final run status, the `needs_human_edit`
annotation, how many `fix_layout` iterations ran, and the issues still open
at the end. -/
structure FixLoopResult (Issue : Type) where
  status : RunStatus
  needs_human_edit : Bool
  fix_iterations : Nat
  remaining_issues : List Issue

/-- Modelled from the spec: the orchestrator's fix loop with a remaining
budget — `render_plan` then `quality_check`; on a clean check the run
completes; otherwise, while budget remains, `fix_layout` produces a new IR
and the loop re-renders; with the budget exhausted the run still completes,
annotated `needs_human_edit` with the issue list preserved. -/
def fixLoopGo {IR Plan Issue : Type} (render : IR → Plan)
    (qc : Plan → List Issue) (fix : IR → List Issue → IR) :
    Nat → Nat → IR → FixLoopResult Issue
  | 0, iters, ir =>
    let issues := qc (render ir)
    if issues.isEmpty then ⟨RunStatus.completed, false, iters, []⟩
    else ⟨RunStatus.completed, true, iters, issues⟩
  | b + 1, iters, ir =>
    let issues := qc (render ir)
    if issues.isEmpty then ⟨RunStatus.completed, false, iters, []⟩
    else fixLoopGo render qc fix b (iters + 1) (fix ir issues)

/-- Modelled from the spec: a whole fix loop bounded at `max_fix_loops`. -/
def runFixLoop {IR Plan Issue : Type} (max_fix_loops : Nat)
    (render : IR → Plan) (qc : Plan → List Issue)
    (fix : IR → List Issue → IR) (ir : IR) : FixLoopResult Issue :=
  fixLoopGo render qc fix max_fix_loops 0 ir

theorem fixLoopGo_spec {IR Plan Issue : Type} (render : IR → Plan)
    (qc : Plan → List Issue) (fix : IR → List Issue → IR) :
    ∀ budget iters ir,
      (fixLoopGo render qc fix budget iters ir).status
          = RunStatus.completed ∧
      (fixLoopGo render qc fix budget iters ir).fix_iterations
          ≤ iters + budget ∧
      ((fixLoopGo render qc fix budget iters ir).remaining_issues ≠ [] →
        (fixLoopGo render qc fix budget iters ir).needs_human_edit
          = true) := by
  intro budget
  induction budget with
  | zero =>
    intro iters ir
    by_cases h : (qc (render ir)).isEmpty = true
    · simp [fixLoopGo, h]
    · simp [fixLoopGo, h]
  | succ b ih =>
    intro iters ir
    by_cases h : (qc (render ir)).isEmpty = true
    · simp [fixLoopGo, h]
    · have hrec := ih (iters + 1) (fix ir (qc (render ir)))
      simp only [fixLoopGo, h, Bool.false_eq_true, if_false]
      refine ⟨hrec.1, ?_, hrec.2.2⟩
      have h2 := hrec.2.1
      omega

/-- C1: for every fix-loop budget, every engine triple and every initial IR,
the fix loop executes at most `max_fix_loops` `fix_layout` iterations and
always ends with the run `completed`; when issues still remain at the end,
the result is annotated `needs_human_edit = true` — it never blocks. -/
theorem fix_loop_bounded {IR Plan Issue : Type} (max_fix_loops : Nat)
    (render : IR → Plan) (qc : Plan → List Issue)
    (fix : IR → List Issue → IR) (ir : IR) :
    (runFixLoop max_fix_loops render qc fix ir).status
        = RunStatus.completed ∧
    (runFixLoop max_fix_loops render qc fix ir).fix_iterations
        ≤ max_fix_loops ∧
    ((runFixLoop max_fix_loops render qc fix ir).remaining_issues ≠ [] →
      (runFixLoop max_fix_loops render qc fix ir).needs_human_edit
        = true) := by
  have h := fixLoopGo_spec render qc fix max_fix_loops 0 ir
  refine ⟨h.1, ?_, h.2.2⟩
  have h2 := h.2.1
  rw [runFixLoop]
  omega

theorem fix_loop_bounded_witness :
    (runFixLoop default_max_fix_loops (fun n : Nat => n) (fun _ => [0])
        (fun n _ => n) 0).status = RunStatus.completed ∧
    (runFixLoop default_max_fix_loops (fun n : Nat => n) (fun _ => [0])
        (fun n _ => n) 0).fix_iterations ≤ default_max_fix_loops ∧
    (runFixLoop default_max_fix_loops (fun n : Nat => n) (fun _ => [0])
        (fun n _ => n) 0).needs_human_edit = true :=
  ⟨(fix_loop_bounded default_max_fix_loops (fun n : Nat => n) (fun _ => [0])
      (fun n _ => n) 0).1,
   (fix_loop_bounded default_max_fix_loops (fun n : Nat => n) (fun _ => [0])
      (fun n _ => n) 0).2.1,
   (fix_loop_bounded default_max_fix_loops (fun n : Nat => n) (fun _ => [0])
      (fun n _ => n) 0).2.2 (by decide)⟩

end DocAIAgent
